import Mathlib

/-!
Verification of the repository-introspection layer of rush-lib (the
`Git` class): URL normalization for remote matching, change detection,
remote resolution, and memoized configuration queries.  Subprocess
invocations and external collaborators are passed in explicitly as
oracles (their captured output or exit status), so that every function
here is a pure, executable embedding of the corresponding source code.
-/

namespace RushGit

/-- JavaScript whitespace as removed by the trim method of strings: the
ASCII whitespace characters plus no-break space, the byte-order mark and
the two Unicode line separators (the subset relevant to this code). -/
def isJsWs (c : Char) : Bool :=
  c = ' ' || c = '\t' || c = '\n' || c = '\r' || c = Char.ofNat 11 ||
  c = Char.ofNat 12 || c = Char.ofNat 0xa0 || c = Char.ofNat 0x2028 ||
  c = Char.ofNat 0x2029 || c = Char.ofNat 0xfeff

/-- JavaScript line terminators: the characters that the dot of a regular
expression without the dotAll flag refuses to match. -/
def isJsLineTerm (c : Char) : Bool :=
  c = '\n' || c = '\r' || c = Char.ofNat 0x2028 || c = Char.ofNat 0x2029

/-- The trim method of JavaScript strings, on a character list. -/
def jsTrim (l : List Char) : List Char :=
  ((l.dropWhile isJsWs).reverse.dropWhile isJsWs).reverse

/-- The trim method of JavaScript strings. -/
def jsTrimS (s : String) : String := ⟨jsTrim s.data⟩

/-- Split at the first occurrence of a character, returning the parts
before and after it, or none when the character is absent. -/
def splitOnFirst (sep : Char) : List Char → Option (List Char × List Char)
  | [] => none
  | c :: t =>
    if c = sep then some ([], t)
    else (splitOnFirst sep t).map (fun q => (c :: q.1, q.2))

/-- JavaScript split on a newline character: the list of
newline-separated segments; empty input yields one empty segment. -/
def splitNl : List Char → List (List Char)
  | [] => [[]]
  | c :: t =>
    if c = '\n' then [] :: splitNl t
    else
      match splitNl t with
      | [] => [[c]]
      | h :: r => (c :: h) :: r

/-- The final replace step of normalizeGitUrlForComparison (Git.ts 445),
acting on the reversed character list.  The regex written in the source
is an unescaped dot, then the three letters g i t, then an optional
slash, anchored at the end; the dot matches any character except a line
terminator. -/
def stripGitRev : List Char → List Char
  | 't' :: 'i' :: 'g' :: c :: rest =>
    if isJsLineTerm c then 't' :: 'i' :: 'g' :: c :: rest else rest
  | '/' :: 't' :: 'i' :: 'g' :: c :: rest =>
    if isJsLineTerm c then '/' :: 't' :: 'i' :: 'g' :: c :: rest else rest
  | l => l

/-- The final replace step of normalizeGitUrlForComparison (Git.ts 445):
remove a trailing match of the pattern described at stripGitRev. -/
def stripGit (l : List Char) : List Char := (stripGitRev l.reverse).reverse

/-- Assemble the SCP-rewrite result, inserting a slash when the path does
not already begin with one (Git.ts 416 to 420). -/
def mkScpResult (host post : List Char) : List Char :=
  "https://".data ++ host ++ (if post.head? = some '/' then post else '/' :: post)

/-- The no-user alternative of the SCP-like regex: the whole part before
the first colon is the host and must be at least two characters long. -/
def scpNoUser (pre post : List Char) : Option (List Char) :=
  if 2 ≤ pre.length then some (mkScpResult pre post) else none

/-- The SCP-like rewrite of normalizeGitUrlForComparison (Git.ts 406 to
421).  The source regex matches when the part before the first colon
contains no slash, and the part after the colon is nonempty, free of
line terminators (the dot of the regex cannot cross them) and does not
start with two slashes; the user-part alternative is tried first by the
regex engine and falls back to the host-only alternative. -/
def scpRewrite (gitUrl : List Char) : Option (List Char) :=
  match splitOnFirst ':' gitUrl with
  | none => none
  | some (pre, post) =>
    if pre.contains '/' then none
    else if post.isEmpty then none
    else if post.take 2 = ['/', '/'] then none
    else if post.any isJsLineTerm then none
    else
      match splitOnFirst '@' pre with
      | some (u, hostRest) =>
        if u.isEmpty then scpNoUser pre post
        else if 2 ≤ hostRest.length then some (mkScpResult hostRest post)
        else scpNoUser pre post
      | none => scpNoUser pre post

/-- Characters accepted in a URL scheme by the legacy Node URL module. -/
def isSchemeChar (c : Char) : Bool := c.isAlphanum || c = '+' || c = '-' || c = '.'

/-- A character ending the authority section of a URL. -/
def isAuthorityEnd (c : Char) : Bool := c == '/' || c == '?' || c == '#'

/-- A character starting the query or fragment section of a URL. -/
def isQueryOrFrag (c : Char) : Bool := c == '?' || c == '#'

/-- The pieces of a parsed URL that normalizeGitUrlForComparison reads. -/
structure NodeUrl where
  protocol : Option (List Char)
  host : List Char
  pathname : List Char

/-- Modelled from the spec: the source delegates URL parsing to the Node
url module, an external collaborator whose code is not part of this
repository.  Per the spec (section 4.4 step 3) the parse extracts the
scheme, the host (with credentials removed, splitting at the last at
sign of the authority) and the pathname (stopping at a query or
fragment); the host retains any port suffix, matching the way the
source consumes the parsed host field. -/
def nodeUrlParse (s : List Char) : NodeUrl :=
  let sch := s.takeWhile isSchemeChar
  let rest := s.dropWhile isSchemeChar
  if sch.isEmpty then ⟨none, [], []⟩
  else
    match rest with
    | ':' :: r =>
      if r.take 2 = ['/', '/'] then
        let afterSlashes := r.drop 2
        let authority := afterSlashes.takeWhile (fun c => !isAuthorityEnd c)
        let after := afterSlashes.dropWhile (fun c => !isAuthorityEnd c)
        let host := (authority.reverse.takeWhile (fun c => c != '@')).reverse
        ⟨some (sch ++ [':']), host, after.takeWhile (fun c => !isQueryOrFrag c)⟩
      else
        ⟨some (sch ++ [':']), [], r.takeWhile (fun c => !isQueryOrFrag c)⟩
    | _ => ⟨none, [], []⟩

/-- The schemes recognized by the rebuild switch (Git.ts 427 to 438),
without the trailing colon. -/
def recognizedSchemes : List (List Char) :=
  ["http", "https", "ssh", "ftp", "ftps", "git", "git+http",
   "git+https", "git+ssh", "git+ftp", "git+ftps"].map String.data

/-- The protocol values recognized by the rebuild switch (Git.ts 427 to
438), as compared against the parsed protocol field. -/
def recognizedProtocols : List (List Char) :=
  recognizedSchemes.map (fun s => s ++ [':'])

/-- The scheme-rebuild switch of normalizeGitUrlForComparison (Git.ts
423 to 442): parse, and when the protocol is recognized reassemble the
https spelling from the parsed host and pathname; otherwise pass the
input through unchanged. -/
def rebuildRecognized (r1 : List Char) : List Char :=
  match (nodeUrlParse r1).protocol with
  | some p =>
    if recognizedProtocols.contains p then
      "https://".data ++ (nodeUrlParse r1).host ++ (nodeUrlParse r1).pathname
    else r1
  | none => r1

/-- Git.normalizeGitUrlForComparison (Git.ts 388 to 447) on character
lists: trim, SCP-like rewrite (matched against the untrimmed input,
exactly as in the source), scheme rebuild for recognized protocols, and
the final trailing strip. -/
def normalizeGitUrlForComparisonL (gitUrl : List Char) : List Char :=
  stripGit (rebuildRecognized (match scpRewrite gitUrl with
    | some r => r
    | none => jsTrim gitUrl))

/-- Git.normalizeGitUrlForComparison on strings. -/
def normalizeGitUrlForComparison (gitUrl : String) : String :=
  ⟨normalizeGitUrlForComparisonL gitUrl.data⟩

/-- Modelled from the spec: Path.isUnderOrEqual comes from the external
node-core-library package, not from this repository; per the spec it
keeps exactly the paths at or under the given filter path. -/
def isUnderOrEqualL (p q : List Char) : Bool :=
  p == q || (p.take (q.length + 1) == q ++ ['/'])

/-- The per-line map of Git.getChangedFiles (Git.ts 270 to 281): an empty
line maps to none; any other line is trimmed and kept exactly when no
filter path was given or the trimmed line is at or under it. -/
def processChangedLine (filterPath : Option (List Char)) (line : List Char) :
    Option (List Char) :=
  if line.isEmpty then none
  else
    let t := jsTrim line
    match filterPath with
    | none => some t
    | some q => if isUnderOrEqualL t q then some t else none

/-- The final filter of Git.getChangedFiles (Git.ts 282 to 284): keep
defined, nonempty entries. -/
def keepLine : Option (List Char) → Bool
  | none => false
  | some t => !t.isEmpty

/-- The output processing of Git.getChangedFiles (Git.ts 252 to 285), as
a function of the captured git diff output and the optional filter
path. -/
def getChangedFilesL (diffOutput : List Char) (filterPath : Option (List Char)) :
    List (List Char) :=
  (((splitNl diffOutput).map (processChangedLine filterPath)).filter keepLine).reduceOption

/-- Git private helper getUntrackedChanges (Git.ts 487 to 495), as a
function of the captured git ls-files output: trim the whole output,
then split on newlines. -/
def getUntrackedChangesL (output : List Char) : List (List Char) :=
  splitNl (jsTrim output)

/-- Git private helper getDiffOnHEAD (Git.ts 497 to 502), as a function
of the captured git diff HEAD output: trim the whole output, then split
on newlines. -/
def getDiffOnHEADL (output : List Char) : List (List Char) :=
  splitNl (jsTrim output)

/-- Git.getUncommittedChanges (Git.ts 366 to 374): concatenate the two
line lists and keep the entries whose trim is nonempty. -/
def getUncommittedChangesL (untrackedOutput diffOutput : List Char) :
    List (List Char) :=
  (getUntrackedChangesL untrackedOutput ++ getDiffOnHEADL diffOutput).filter
    (fun change => !(jsTrim change).isEmpty)

/-- The IResultOrError interface (Git.ts 20 to 23): both fields are
optional, exactly as in the TypeScript declaration. -/
structure IResultOrError (T : Type) where
  error : Option String := none
  result : Option T := none

/-- Git private helper tryGetGitEmail (Git.ts 449 to 464) as one step
over its explicit cache slot.  The probe argument is the outcome of the
git config user.email subprocess; the returned Bool records whether the
probe was actually invoked by this call. -/
def tryGetGitEmailStep (probe : Except String (List Char))
    (cache : Option (IResultOrError (List Char))) :
    IResultOrError (List Char) × Option (IResultOrError (List Char)) × Bool :=
  match cache with
  | some r => (r, some r, false)
  | none =>
    match probe with
    | .ok out =>
      let r : IResultOrError (List Char) := { result := some (jsTrim out) }
      (r, some r, true)
    | .error e =>
      let r : IResultOrError (List Char) := { error := some e }
      (r, some r, true)

/-- Git private helper tryGetGitHooksPath (Git.ts 466 to 485): the same
caching discipline over the git rev-parse probe. -/
def tryGetGitHooksPathStep (probe : Except String (List Char))
    (cache : Option (IResultOrError (List Char))) :
    IResultOrError (List Char) × Option (IResultOrError (List Char)) × Bool :=
  match cache with
  | some r => (r, some r, false)
  | none =>
    match probe with
    | .ok out =>
      let r : IResultOrError (List Char) := { result := some (jsTrim out) }
      (r, some r, true)
    | .error e =>
      let r : IResultOrError (List Char) := { error := some e }
      (r, some r, true)

/-- Git.getGitEmail (Git.ts 106 to 138).  The error side carries the
lines printed to the console before the AlreadyReportedError is thrown;
policyLines stands for the external GitEmailPolicy example lines. -/
def getGitEmailL (probe : Except String (List Char)) (policyLines : List String)
    (cache : Option (IResultOrError (List Char))) :
    Except (List String) (List Char) × Option (IResultOrError (List Char)) :=
  let step := tryGetGitEmailStep probe cache
  let emailResult := step.1
  let cache2 := step.2.1
  match emailResult.error with
  | some e =>
    (.error ["Error: " ++ e,
             "Unable to determine your Git configuration using this command:",
             "", "    git config user.email", ""], cache2)
  | none =>
    match emailResult.result with
    | some r =>
      if r.isEmpty then
        (.error (["This operation requires that a Git email be specified.", "",
                  "If you did not configure your email yet, try something like this:",
                  ""] ++ policyLines ++ [""]), cache2)
      else (.ok r, cache2)
    | none =>
      (.error (["This operation requires that a Git email be specified.", "",
                "If you did not configure your email yet, try something like this:",
                ""] ++ policyLines ++ [""]), cache2)

/-- The configuration fields consumed by Git.getRemoteDefaultBranch. -/
structure RushConfigModel where
  repositoryUrls : List String
  repositoryDefaultBranch : String
  repositoryDefaultFullyQualifiedRemoteBranch : String

/-- Split a string on newline characters. -/
def splitNlS (s : String) : List String := (splitNl s.data).map (fun l => ⟨l⟩)

/-- One step of the matchingRemotes filter inside
Git.getRemoteDefaultBranch (Git.ts 308 to 328), with every issued git
remote get-url command logged in the accumulator. -/
def remoteMatchStep (getUrl : String → String)
    (normalizedRepositoryUrls : List String)
    (acc : List String × List (List String)) (remoteName : String) :
    List String × List (List String) :=
  if remoteName.isEmpty then acc
  else
    let remoteUrl := jsTrimS (getUrl remoteName)
    let cmds := acc.2 ++ [["remote", "get-url", remoteName]]
    if remoteUrl.isEmpty then (acc.1, cmds)
    else if normalizedRepositoryUrls.contains
        (normalizeGitUrlForComparison remoteUrl).toUpper then
      (acc.1 ++ [remoteName], cmds)
    else (acc.1, cmds)

/-- Git.getRemoteDefaultBranch (Git.ts 296 to 357), as a function of the
configuration, the captured git remote output, and the git remote
get-url oracle.  Returns the chosen branch, the console messages, and
the git commands issued. -/
def getRemoteDefaultBranchL (cfg : RushConfigModel) (remotesOutput : String)
    (getUrl : String → String) : String × List String × List (List String) :=
  if 0 < cfg.repositoryUrls.length then
    let normalizedRepositoryUrls :=
      cfg.repositoryUrls.map (fun u => (normalizeGitUrlForComparison u).toUpper)
    let remoteNames := splitNlS (jsTrimS remotesOutput)
    let res := remoteNames.foldl (remoteMatchStep getUrl normalizedRepositoryUrls)
      ([], [["remote"]])
    match res.1 with
    | first :: restMatches =>
      let msgs := if 0 < restMatches.length then
          ["More than one git remote matches the repository URL. Using the first remote (" ++
            first ++ ")."]
        else []
      (first ++ "/" ++ cfg.repositoryDefaultBranch, msgs, res.2)
    | [] =>
      let errorMessage := if 1 < cfg.repositoryUrls.length then
          "Unable to find a git remote matching one of the repository URLs (" ++
            String.intercalate ", " cfg.repositoryUrls ++ "). "
        else
          "Unable to find a git remote matching the repository URL (" ++
            cfg.repositoryUrls.headD "" ++ "). "
      (cfg.repositoryDefaultFullyQualifiedRemoteBranch,
       [errorMessage ++ "Detected changes are likely to be incorrect."], res.2)
  else
    (cfg.repositoryDefaultFullyQualifiedRemoteBranch,
     ["A git remote URL has not been specified in rush.json. Setting the baseline remote URL is recommended."],
     [])

/-- Git private helper tryFetchRemoteBranch (Git.ts 504 to 524).  The
fetchOk argument is the external git fetch subprocess, true meaning exit
status zero; a branch name without a slash throws. -/
def tryFetchRemoteBranchL (fetchOk : String → String → Bool)
    (remoteBranchName : String) : Except String Bool :=
  match splitOnFirst '/' remoteBranchName.data with
  | none =>
    .error ("Unexpected git remote branch format: " ++ remoteBranchName ++
      ". Expected branch to be in the <remote>/<branch name> format.")
  | some (remoteName, branchName) => .ok (fetchOk ⟨remoteName⟩ ⟨branchName⟩)

/-- Git private helper fetchRemoteBranch (Git.ts 526 to 534): returns the
console messages and the terminal warnings; an exception from the
tryFetchRemoteBranch helper propagates. -/
def fetchRemoteBranchL (fetchOk : String → String → Bool)
    (remoteBranchName : String) : Except String (List String × List String) :=
  let consoleMsgs := ["Checking for updates to " ++ remoteBranchName ++ "..."]
  match tryFetchRemoteBranchL fetchOk remoteBranchName with
  | .error e => .error e
  | .ok true => .ok (consoleMsgs, [])
  | .ok false =>
    .ok (consoleMsgs,
      ["Error fetching git remote branch " ++ remoteBranchName ++
        ". Detected changed files may be incorrect."])

/-- Git.getMergeBase (Git.ts 216 to 232): optionally fetch the remote
branch, then trim the captured git merge-base output. -/
def getMergeBaseL (fetchOk : String → String → Bool) (mergeBaseOutput : String)
    (targetBranch : String) (shouldFetch : Bool) : Except String String :=
  if shouldFetch then
    match fetchRemoteBranchL fetchOk targetBranch with
    | .error e => .error e
    | .ok _ => .ok (jsTrimS mergeBaseOutput)
  else .ok (jsTrimS mergeBaseOutput)

/-- Git.getChangedFiles (Git.ts 252 to 285) including the optional fetch
step that precedes the diff. -/
def getChangedFilesFullL (fetchOk : String → String → Bool)
    (diffOutput : List Char) (targetBranch : String) (skipFetch : Bool)
    (filterPath : Option (List Char)) : Except String (List (List Char)) :=
  if skipFetch then .ok (getChangedFilesL diffOutput filterPath)
  else
    match fetchRemoteBranchL fetchOk targetBranch with
    | .error e => .error e
    | .ok _ => .ok (getChangedFilesL diffOutput filterPath)

/-- The invariant claimed for IResultOrError values produced by the
memoized queries: exactly one of the two optional fields is set. -/
def ExactlyOneOutcome {T : Type} (r : IResultOrError T) : Prop :=
  (r.result.isSome = true ∧ r.error = none) ∨
  (r.result = none ∧ r.error.isSome = true)

/-- A character that can appear after the authority marker in a
well-formed supported URL: no whitespace, no query or fragment marker,
no at sign. -/
def tailOkChar (c : Char) : Bool :=
  !isJsWs c && c != '?' && c != '#' && c != '@'

/-- A character that can appear in a well-formed host. -/
def hostOkChar (c : Char) : Bool :=
  tailOkChar c && c != ':' && c != '/'

/-- The supported URL forms of the spec (section 4.4): an SCP-like
spelling with or without a user part, or a recognized scheme followed by
an authority and a path, each built from well-formed host and path
characters. -/
def SupportedGitUrlForm (x : List Char) : Prop :=
  (∃ u host p, x = u ++ '@' :: (host ++ ':' :: p) ∧ u ≠ [] ∧
    '@' ∉ u ∧ ':' ∉ u ∧ '/' ∉ u ∧
    2 ≤ host.length ∧ (∀ c ∈ host, hostOkChar c = true) ∧
    p ≠ [] ∧ p.take 2 ≠ ['/', '/'] ∧ (∀ c ∈ p, tailOkChar c = true)) ∨
  (∃ host p, x = host ++ ':' :: p ∧
    2 ≤ host.length ∧ (∀ c ∈ host, hostOkChar c = true) ∧
    p ≠ [] ∧ p.take 2 ≠ ['/', '/'] ∧ (∀ c ∈ p, tailOkChar c = true)) ∨
  (∃ sch host p, sch ∈ recognizedSchemes ∧
    x = sch ++ ':' :: '/' :: '/' :: (host ++ p) ∧
    (∀ c ∈ host, hostOkChar c = true) ∧
    (p = [] ∨ ∃ t, p = '/' :: t) ∧ (∀ c ∈ p, tailOkChar c = true))

/-! ### Helper lemmas -/

theorem dropWhile_eq_self_of_forall (p : Char → Bool) (l : List Char)
    (h : ∀ c ∈ l, p c = false) : l.dropWhile p = l := by
  cases l with
  | nil => rfl
  | cons a t => simp [List.dropWhile_cons, h a (List.mem_cons_self a t)]

theorem takeWhile_eq_self_of_forall (p : Char → Bool) (l : List Char)
    (h : ∀ c ∈ l, p c = true) : l.takeWhile p = l := by
  induction l with
  | nil => rfl
  | cons a t ih =>
    simp [List.takeWhile_cons, h a (List.mem_cons_self a t),
      ih (fun c hc => h c (List.mem_cons_of_mem a hc))]

theorem dropWhile_eq_nil_of_forall (p : Char → Bool) (l : List Char)
    (h : ∀ c ∈ l, p c = true) : l.dropWhile p = [] := by
  induction l with
  | nil => rfl
  | cons a t ih =>
    simp [List.dropWhile_cons, h a (List.mem_cons_self a t),
      ih (fun c hc => h c (List.mem_cons_of_mem a hc))]

theorem takeWhile_append_stop (p : Char → Bool) (a : List Char) (x : Char)
    (b : List Char) (ha : ∀ c ∈ a, p c = true) (hx : p x = false) :
    (a ++ x :: b).takeWhile p = a := by
  induction a with
  | nil => simp [List.takeWhile_cons, hx]
  | cons y t ih =>
    simp [List.takeWhile_cons, ha y (List.mem_cons_self y t),
      ih (fun c hc => ha c (List.mem_cons_of_mem y hc))]

theorem dropWhile_append_stop (p : Char → Bool) (a : List Char) (x : Char)
    (b : List Char) (ha : ∀ c ∈ a, p c = true) (hx : p x = false) :
    (a ++ x :: b).dropWhile p = x :: b := by
  induction a with
  | nil => simp [List.dropWhile_cons, hx]
  | cons y t ih =>
    simp [List.dropWhile_cons, ha y (List.mem_cons_self y t),
      ih (fun c hc => ha c (List.mem_cons_of_mem y hc))]

theorem jsTrim_eq_self (l : List Char) (h : ∀ c ∈ l, isJsWs c = false) :
    jsTrim l = l := by
  unfold jsTrim
  rw [dropWhile_eq_self_of_forall _ _ h,
    dropWhile_eq_self_of_forall _ _ (fun c hc => h c (List.mem_reverse.mp hc)),
    List.reverse_reverse]

theorem splitOnFirst_append (sep : Char) (a b : List Char) (h : sep ∉ a) :
    splitOnFirst sep (a ++ sep :: b) = some (a, b) := by
  induction a with
  | nil => simp [splitOnFirst]
  | cons x t ih =>
    have hx : x ≠ sep := fun hh => h (hh ▸ List.mem_cons_self x t)
    simp [splitOnFirst, hx, ih (fun hm => h (List.mem_cons_of_mem x hm))]

theorem splitOnFirst_eq_none (sep : Char) (l : List Char) (h : sep ∉ l) :
    splitOnFirst sep l = none := by
  induction l with
  | nil => rfl
  | cons x t ih =>
    have hx : x ≠ sep := fun hh => h (hh ▸ List.mem_cons_self x t)
    simp [splitOnFirst, hx, ih (fun hm => h (List.mem_cons_of_mem x hm))]

theorem splitOnFirst_isSome_of_mem (sep : Char) (l : List Char) (h : sep ∈ l) :
    ∃ a b, splitOnFirst sep l = some (a, b) := by
  induction l with
  | nil => exact absurd h (List.not_mem_nil sep)
  | cons x t ih =>
    by_cases hx : x = sep
    · subst hx; exact ⟨[], t, by simp [splitOnFirst]⟩
    · have hs : sep ∈ t := by
        rcases List.mem_cons.mp h with h1 | h1
        · exact absurd h1.symm hx
        · exact h1
      obtain ⟨a, b, hab⟩ := ih hs
      exact ⟨x :: a, b, by simp [splitOnFirst, hx, hab]⟩

theorem contains_eq_false_of_not_mem (l : List Char) (c : Char) (h : c ∉ l) :
    l.contains c = false := by simpa using h

/-- The reversed stripping step only ever drops a front segment of its
reversed argument. -/
theorem stripGitRev_drop (r : List Char) : ∃ k, stripGitRev r = r.drop k := by
  unfold stripGitRev
  split
  · split
    · exact ⟨0, rfl⟩
    · exact ⟨4, rfl⟩
  · split
    · exact ⟨0, rfl⟩
    · exact ⟨5, rfl⟩
  · exact ⟨0, rfl⟩

/-- The stripping step only ever removes characters from the end. -/
theorem stripGit_drops_suffix (l : List Char) : ∃ t, l = stripGit l ++ t := by
  obtain ⟨k, hk⟩ := stripGitRev_drop l.reverse
  refine ⟨(l.reverse.take k).reverse, ?_⟩
  conv_lhs => rw [← List.reverse_reverse l, ← List.take_append_drop k l.reverse]
  rw [List.reverse_append, stripGit, hk]

theorem tailOk_facts (c : Char) (h : tailOkChar c = true) :
    isJsWs c = false ∧ c ≠ '?' ∧ c ≠ '#' ∧ c ≠ '@' := by
  simp only [tailOkChar, Bool.and_eq_true, bne_iff_ne, Bool.not_eq_true'] at h
  exact ⟨h.1.1.1, h.1.1.2, h.1.2, h.2⟩

theorem hostOk_facts (c : Char) (h : hostOkChar c = true) :
    tailOkChar c = true ∧ c ≠ ':' ∧ c ≠ '/' := by
  simp only [hostOkChar, Bool.and_eq_true, bne_iff_ne] at h
  exact ⟨h.1.1, h.1.2, h.2⟩

theorem lineTerm_false_of_ws_false (c : Char) (h : isJsWs c = false) :
    isJsLineTerm c = false := by
  by_contra hc
  have hc2 : isJsLineTerm c = true := by
    revert hc; cases isJsLineTerm c <;> simp
  simp only [isJsLineTerm, Bool.or_eq_true, decide_eq_true_eq] at hc2
  rcases hc2 with ((h1 | h1) | h1) | h1 <;> subst h1 <;> exact absurd h (by decide)

theorem authEnd_false (c : Char) (h1 : c ≠ '/') (h2 : c ≠ '?') (h3 : c ≠ '#') :
    (!isAuthorityEnd c) = true := by
  simp [isAuthorityEnd, h1, h2, h3]

theorem queryFrag_false (c : Char) (h2 : c ≠ '?') (h3 : c ≠ '#') :
    (!isQueryOrFrag c) = true := by
  simp [isQueryOrFrag, h2, h3]

theorem recognizedSchemes_facts :
    ∀ S ∈ recognizedSchemes, S ≠ [] ∧ (∀ c ∈ S, isSchemeChar c = true) ∧
      ':' ∉ S ∧ '/' ∉ S ∧ recognizedProtocols.contains (S ++ [':']) = true ∧
      (∀ c ∈ S, isJsWs c = false) := by decide

/-- Computation of the URL parse on inputs of the slashed form: scheme,
colon, two slashes, remainder. -/
theorem nodeUrlParse_slashes (S rest : List Char) (hS1 : S ≠ [])
    (hS2 : ∀ c ∈ S, isSchemeChar c = true) :
    nodeUrlParse (S ++ ':' :: '/' :: '/' :: rest) =
      ⟨some (S ++ [':']),
       ((rest.takeWhile (fun c => !isAuthorityEnd c)).reverse.takeWhile
         (fun c => c != '@')).reverse,
       (rest.dropWhile (fun c => !isAuthorityEnd c)).takeWhile
         (fun c => !isQueryOrFrag c)⟩ := by
  have h1 : (S ++ ':' :: '/' :: '/' :: rest).takeWhile isSchemeChar = S :=
    takeWhile_append_stop _ S ':' _ hS2 (by decide)
  have h2 : (S ++ ':' :: '/' :: '/' :: rest).dropWhile isSchemeChar =
      ':' :: '/' :: '/' :: rest :=
    dropWhile_append_stop _ S ':' _ hS2 (by decide)
  have hSe : S.isEmpty = false := by
    cases S with
    | nil => exact absurd rfl hS1
    | cons a t => rfl
  unfold nodeUrlParse
  rw [h1, h2]
  simp [hSe, List.take, List.drop]

/-- The SCP-like rewrite does not fire on inputs whose first colon is
followed by two slashes. -/
theorem scpRewrite_slashes_none (S rest : List Char) (hc : ':' ∉ S) :
    scpRewrite (S ++ ':' :: '/' :: '/' :: rest) = none := by
  unfold scpRewrite
  rw [splitOnFirst_append ':' S _ hc]
  simp [List.take]

/-- Computation of the SCP-like rewrite on a user, host, path spelling. -/
theorem scpRewrite_user (u H p : List Char)
    (hu0 : u ≠ []) (hu1 : '@' ∉ u) (hu2 : ':' ∉ u) (hu3 : '/' ∉ u)
    (hH1 : ':' ∉ H) (hH2 : '/' ∉ H) (hHlen : 2 ≤ H.length)
    (hp0 : p ≠ []) (hp1 : p.take 2 ≠ ['/', '/'])
    (hp2 : ∀ c ∈ p, isJsLineTerm c = false) :
    scpRewrite (u ++ '@' :: (H ++ ':' :: p)) = some (mkScpResult H p) := by
  have hkey : u ++ '@' :: (H ++ ':' :: p) = (u ++ '@' :: H) ++ ':' :: p := by simp
  have hpre : ':' ∉ u ++ '@' :: H := by
    intro hm
    rcases List.mem_append.mp hm with hm | hm
    · exact hu2 hm
    · rcases List.mem_cons.mp hm with hm | hm
      · exact absurd hm (by decide)
      · exact hH1 hm
  have hslash : '/' ∉ u ++ '@' :: H := by
    intro hm
    rcases List.mem_append.mp hm with hm | hm
    · exact hu3 hm
    · rcases List.mem_cons.mp hm with hm | hm
      · exact absurd hm (by decide)
      · exact hH2 hm
  have hpe : p.isEmpty = false := by
    cases p with
    | nil => exact absurd rfl hp0
    | cons a t => rfl
  have hue : u.isEmpty = false := by
    cases u with
    | nil => exact absurd rfl hu0
    | cons a t => rfl
  have hany : p.any isJsLineTerm = false := by
    rw [List.any_eq_false]
    intro c hc
    simp [hp2 c hc]
  rw [hkey]
  unfold scpRewrite
  rw [splitOnFirst_append ':' (u ++ '@' :: H) p hpre]
  simp only [contains_eq_false_of_not_mem _ '/' hslash, hpe, hany,
    Bool.false_eq_true, if_false, if_neg hp1]
  rw [splitOnFirst_append '@' u H hu1]
  simp [hue, hHlen]

/-- Computation of the SCP-like rewrite on a host, path spelling without
a user part. -/
theorem scpRewrite_noUser (H p : List Char)
    (hH1 : ':' ∉ H) (hH2 : '/' ∉ H) (hH3 : '@' ∉ H) (hHlen : 2 ≤ H.length)
    (hp0 : p ≠ []) (hp1 : p.take 2 ≠ ['/', '/'])
    (hp2 : ∀ c ∈ p, isJsLineTerm c = false) :
    scpRewrite (H ++ ':' :: p) = some (mkScpResult H p) := by
  have hpe : p.isEmpty = false := by
    cases p with
    | nil => exact absurd rfl hp0
    | cons a t => rfl
  have hany : p.any isJsLineTerm = false := by
    rw [List.any_eq_false]
    intro c hc
    simp [hp2 c hc]
  unfold scpRewrite
  rw [splitOnFirst_append ':' H p hH1]
  simp only [contains_eq_false_of_not_mem _ '/' hH2, hpe, hany,
    Bool.false_eq_true, if_false, if_neg hp1]
  rw [splitOnFirst_eq_none '@' H hH3]
  simp [scpNoUser, hHlen]

/-- Unfolding of the normalization pipeline when the SCP-like rewrite
fires. -/
theorem normalizeL_eq_some (x r : List Char) (h : scpRewrite x = some r) :
    normalizeGitUrlForComparisonL x = stripGit (rebuildRecognized r) := by
  unfold normalizeGitUrlForComparisonL
  rw [h]

/-- Unfolding of the normalization pipeline when the SCP-like rewrite
does not fire. -/
theorem normalizeL_eq_none (x : List Char) (h : scpRewrite x = none) :
    normalizeGitUrlForComparisonL x = stripGit (rebuildRecognized (jsTrim x)) := by
  unfold normalizeGitUrlForComparisonL
  rw [h]

/-- Computation of the rebuild step on a recognized slashed spelling. -/
theorem rebuildRecognized_slashes (S rest : List Char)
    (hS : S ∈ recognizedSchemes) :
    rebuildRecognized (S ++ ':' :: '/' :: '/' :: rest) =
      "https://".data ++
        ((rest.takeWhile (fun c => !isAuthorityEnd c)).reverse.takeWhile
          (fun c => c != '@')).reverse ++
        (rest.dropWhile (fun c => !isAuthorityEnd c)).takeWhile
          (fun c => !isQueryOrFrag c) := by
  obtain ⟨hS1, hS2, _, _, hS5, _⟩ := recognizedSchemes_facts S hS
  unfold rebuildRecognized
  rw [nodeUrlParse_slashes S rest hS1 hS2]
  have hS5m : S ++ [':'] ∈ recognizedProtocols := by simpa using hS5
  simp [hS5m]

/-- The rebuild step on a recognized scheme with a well-formed host and
path reproduces the https spelling of that host and path. -/
theorem rebuild_scheme_hostpath (S H P : List Char)
    (hS : S ∈ recognizedSchemes)
    (hH : ∀ c ∈ H, hostOkChar c = true)
    (hP0 : P = [] ∨ ∃ t, P = '/' :: t) (hP : ∀ c ∈ P, tailOkChar c = true) :
    rebuildRecognized (S ++ ':' :: '/' :: '/' :: (H ++ P)) =
      "https://".data ++ H ++ P := by
  have hHa : ∀ c ∈ H, (!isAuthorityEnd c) = true := fun c hc => by
    obtain ⟨ht, hcol, hsl⟩ := hostOk_facts c (hH c hc)
    obtain ⟨_, hq, hf, _⟩ := tailOk_facts c ht
    exact authEnd_false c hsl hq hf
  have hauth : (H ++ P).takeWhile (fun c => !isAuthorityEnd c) = H := by
    rcases hP0 with h | ⟨t, ht⟩
    · subst h; rw [List.append_nil]; exact takeWhile_eq_self_of_forall _ H hHa
    · subst ht; exact takeWhile_append_stop _ H '/' t hHa (by decide)
  have hafter : (H ++ P).dropWhile (fun c => !isAuthorityEnd c) = P := by
    rcases hP0 with h | ⟨t, ht⟩
    · subst h; rw [List.append_nil]; exact dropWhile_eq_nil_of_forall _ H hHa
    · subst ht; exact dropWhile_append_stop _ H '/' t hHa (by decide)
  have hhost : (H.reverse.takeWhile (fun c => c != '@')).reverse = H := by
    rw [takeWhile_eq_self_of_forall _ H.reverse (fun c hc => by
        obtain ⟨ht, _, _⟩ := hostOk_facts c (hH c (List.mem_reverse.mp hc))
        obtain ⟨_, _, _, ha⟩ := tailOk_facts c ht
        simpa using ha),
      List.reverse_reverse]
  have hpath : P.takeWhile (fun c => !isQueryOrFrag c) = P :=
    takeWhile_eq_self_of_forall _ P (fun c hc => by
      obtain ⟨_, hq, hf, _⟩ := tailOk_facts c (hP c hc)
      exact queryFrag_false c hq hf)
  rw [rebuildRecognized_slashes S (H ++ P) hS, hauth, hafter, hhost, hpath]

/-- Full normalization of a recognized scheme spelling with well-formed
host and path. -/
theorem normalize_scheme_form (S H P : List Char) (hS : S ∈ recognizedSchemes)
    (hH : ∀ c ∈ H, hostOkChar c = true)
    (hP0 : P = [] ∨ ∃ t, P = '/' :: t) (hP : ∀ c ∈ P, tailOkChar c = true) :
    normalizeGitUrlForComparisonL (S ++ ':' :: '/' :: '/' :: (H ++ P)) =
      stripGit ("https://".data ++ H ++ P) := by
  obtain ⟨hS1, hS2, hS3, hS4, hS5, hS6⟩ := recognizedSchemes_facts S hS
  have hws : ∀ c ∈ S ++ ':' :: '/' :: '/' :: (H ++ P), isJsWs c = false := by
    intro c hc
    rcases List.mem_append.mp hc with hc | hc
    · exact hS6 c hc
    · rcases List.mem_cons.mp hc with hc | hc
      · subst hc; decide
      · rcases List.mem_cons.mp hc with hc | hc
        · subst hc; decide
        · rcases List.mem_cons.mp hc with hc | hc
          · subst hc; decide
          · rcases List.mem_append.mp hc with hc | hc
            · exact (tailOk_facts c (hostOk_facts c (hH c hc)).1).1
            · exact (tailOk_facts c (hP c hc)).1
  rw [normalizeL_eq_none _ (scpRewrite_slashes_none S (H ++ P) hS3),
    jsTrim_eq_self _ hws, rebuild_scheme_hostpath S H P hS hH hP0 hP]

/-- The SCP-rewrite result, rewritten into the slashed shape consumed by
the parse lemmas. -/
theorem mkScpResult_shape (H p : List Char) :
    mkScpResult H p = "https".data ++ ':' :: '/' :: '/' ::
      (H ++ (if p.head? = some '/' then p else '/' :: p)) := by
  rw [mkScpResult, List.append_assoc]
  rfl

/-- The inserted-slash path of the SCP rewrite starts with a slash. -/
theorem scpPath_starts_slash (p : List Char) (hp0 : p ≠ []) :
    (if p.head? = some '/' then p else '/' :: p) = [] ∨
      ∃ t, (if p.head? = some '/' then p else '/' :: p) = '/' :: t := by
  by_cases hhd : p.head? = some '/'
  · rw [if_pos hhd]
    cases p with
    | nil => exact absurd rfl hp0
    | cons a t =>
      right
      refine ⟨t, ?_⟩
      have ha : a = '/' := by simpa using hhd
      rw [ha]
  · rw [if_neg hhd]
    exact Or.inr ⟨p, rfl⟩

/-- The inserted-slash path of the SCP rewrite keeps well-formed
characters. -/
theorem scpPath_tailOk (p : List Char) (hp : ∀ c ∈ p, tailOkChar c = true) :
    ∀ c ∈ (if p.head? = some '/' then p else '/' :: p), tailOkChar c = true := by
  intro c hc
  by_cases hhd : p.head? = some '/'
  · rw [if_pos hhd] at hc; exact hp c hc
  · rw [if_neg hhd] at hc
    rcases List.mem_cons.mp hc with h | h
    · subst h; decide
    · exact hp c h

/-- Full normalization of an SCP-like spelling with a user part. -/
theorem normalize_scp_user (u H p : List Char)
    (hu0 : u ≠ []) (hu1 : '@' ∉ u) (hu2 : ':' ∉ u) (hu3 : '/' ∉ u)
    (hHlen : 2 ≤ H.length) (hH : ∀ c ∈ H, hostOkChar c = true)
    (hp0 : p ≠ []) (hp1 : p.take 2 ≠ ['/', '/'])
    (hp : ∀ c ∈ p, tailOkChar c = true) :
    normalizeGitUrlForComparisonL (u ++ '@' :: (H ++ ':' :: p)) =
      stripGit ("https://".data ++ H ++
        (if p.head? = some '/' then p else '/' :: p)) := by
  have hH1 : ':' ∉ H := fun hm => (hostOk_facts _ (hH _ hm)).2.1 rfl
  have hH2 : '/' ∉ H := fun hm => (hostOk_facts _ (hH _ hm)).2.2 rfl
  have hlt : ∀ c ∈ p, isJsLineTerm c = false := fun c hc =>
    lineTerm_false_of_ws_false c (tailOk_facts c (hp c hc)).1
  rw [normalizeL_eq_some _ _
      (scpRewrite_user u H p hu0 hu1 hu2 hu3 hH1 hH2 hHlen hp0 hp1 hlt),
    mkScpResult_shape,
    rebuild_scheme_hostpath "https".data H _ (by decide) hH
      (scpPath_starts_slash p hp0) (scpPath_tailOk p hp)]

/-- Full normalization of an SCP-like spelling without a user part. -/
theorem normalize_scp_noUser (H p : List Char)
    (hHlen : 2 ≤ H.length) (hH : ∀ c ∈ H, hostOkChar c = true)
    (hp0 : p ≠ []) (hp1 : p.take 2 ≠ ['/', '/'])
    (hp : ∀ c ∈ p, tailOkChar c = true) :
    normalizeGitUrlForComparisonL (H ++ ':' :: p) =
      stripGit ("https://".data ++ H ++
        (if p.head? = some '/' then p else '/' :: p)) := by
  have hH1 : ':' ∉ H := fun hm => (hostOk_facts _ (hH _ hm)).2.1 rfl
  have hH2 : '/' ∉ H := fun hm => (hostOk_facts _ (hH _ hm)).2.2 rfl
  have hH3 : '@' ∉ H := fun hm =>
    (tailOk_facts _ (hostOk_facts _ (hH _ hm)).1).2.2.2 rfl
  have hlt : ∀ c ∈ p, isJsLineTerm c = false := fun c hc =>
    lineTerm_false_of_ws_false c (tailOk_facts c (hp c hc)).1
  rw [normalizeL_eq_some _ _
      (scpRewrite_noUser H p hH1 hH2 hH3 hHlen hp0 hp1 hlt),
    mkScpResult_shape,
    rebuild_scheme_hostpath "https".data H _ (by decide) hH
      (scpPath_starts_slash p hp0) (scpPath_tailOk p hp)]

/-- Full normalization fixes any https spelling whose tail is built from
well-formed characters, up to the final strip. -/
theorem normalize_https_tail (r : List Char)
    (hr : ∀ c ∈ r, tailOkChar c = true) :
    normalizeGitUrlForComparisonL ("https://".data ++ r) =
      stripGit ("https://".data ++ r) := by
  have hshape : "https://".data ++ r = "https".data ++ ':' :: '/' :: '/' :: r := rfl
  rw [hshape]
  have hws : ∀ c ∈ "https".data ++ ':' :: '/' :: '/' :: r, isJsWs c = false := by
    intro c hc
    rcases List.mem_append.mp hc with hc | hc
    · have hc2 : c ∈ ('h' :: 't' :: 't' :: 'p' :: 's' :: ([] : List Char)) := hc
      simp only [List.mem_cons, List.not_mem_nil, or_false] at hc2
      rcases hc2 with h | h | h | h | h <;> subst h <;> decide
    · rcases List.mem_cons.mp hc with h | hc
      · subst h; decide
      · rcases List.mem_cons.mp hc with h | hc
        · subst h; decide
        · rcases List.mem_cons.mp hc with h | hc
          · subst h; decide
          · exact (tailOk_facts c (hr c hc)).1
  rw [normalizeL_eq_none _ (scpRewrite_slashes_none "https".data r (by decide)),
    jsTrim_eq_self _ hws,
    rebuildRecognized_slashes "https".data r (by decide)]
  have hA : ((r.takeWhile (fun c => !isAuthorityEnd c)).reverse.takeWhile
      (fun c => c != '@')).reverse = r.takeWhile (fun c => !isAuthorityEnd c) := by
    rw [takeWhile_eq_self_of_forall _ _ (fun c hc => by
        have hm : c ∈ r := (List.takeWhile_sublist _).subset (List.mem_reverse.mp hc)
        simpa using (tailOk_facts c (hr c hm)).2.2.2),
      List.reverse_reverse]
  have hB : (r.dropWhile (fun c => !isAuthorityEnd c)).takeWhile
      (fun c => !isQueryOrFrag c) = r.dropWhile (fun c => !isAuthorityEnd c) :=
    takeWhile_eq_self_of_forall _ _ (fun c hc => by
      obtain ⟨_, hq, hf, _⟩ :=
        tailOk_facts c (hr c ((List.dropWhile_sublist _).subset hc))
      exact queryFrag_false c hq hf)
  rw [hA, hB, List.append_assoc, List.takeWhile_append_dropWhile]
  rfl

/-- The filtered variant of the changed-file processing equals the
unfiltered variant post-filtered by the same path predicate. -/
theorem getChangedFiles_with_filter_eq (diffOutput : List Char) (q : List Char) :
    getChangedFilesL diffOutput (some q) =
      (getChangedFilesL diffOutput none).filter (fun t => isUnderOrEqualL t q) := by
  unfold getChangedFilesL
  generalize splitNl diffOutput = ls
  induction ls with
  | nil => rfl
  | cons l t ih =>
    by_cases he : l.isEmpty
    · simpa [processChangedLine, he, keepLine] using ih
    · by_cases hemp : (jsTrim l).isEmpty
      · by_cases hq : isUnderOrEqualL (jsTrim l) q <;>
          simpa [processChangedLine, he, hemp, hq, keepLine] using ih
      · by_cases hq : isUnderOrEqualL (jsTrim l) q <;>
          simpa [processChangedLine, he, hemp, hq, keepLine,
            List.reduceOption_cons_of_some] using ih

/-! ### Claim theorems -/

/-- C1 (code bug evidence): the spec and the source comment describe the
final step as removing exactly a trailing dot-git suffix, but the
unescaped dot of the source regex makes it remove the last four
characters of this input, which ends in the letters git without a
preceding dot; the full normalization therefore also mangles it. -/
theorem stripGit_unescaped_dot_bug :
    normalizeGitUrlForComparison "https://example.com/frogit" =
      "https://example.com/fr" ∧
    stripGit "https://example.com/frogit".data = "https://example.com/fr".data ∧
    "https://example.com/frogit".data.reverse.take 4 ≠ ['t', 'i', 'g', '.'] ∧
    "https://example.com/frogit".data.reverse.take 5 ≠ ['/', 't', 'i', 'g', '.'] := by
  decide

/-- C2 (counterexample): normalization is not idempotent on this
supported https URL form, because each pass strips one further trailing
git suffix. -/
theorem normalize_not_idempotent_cex :
    normalizeGitUrlForComparison
        (normalizeGitUrlForComparison "https://host/a.git.git") ≠
      normalizeGitUrlForComparison "https://host/a.git.git" := by
  decide

/-- C2 (amended): normalization is idempotent on every supported URL
form whose normalized result still starts with the https marker and is
left unchanged by the trailing-git stripping step; the counterexample
shows the last condition is necessary. -/
theorem normalize_idempotent_amended (x : List Char)
    (h1 : SupportedGitUrlForm x)
    (h2 : stripGit (normalizeGitUrlForComparisonL x) =
      normalizeGitUrlForComparisonL x)
    (h3 : ∃ r, normalizeGitUrlForComparisonL x = "https://".data ++ r) :
    normalizeGitUrlForComparisonL (normalizeGitUrlForComparisonL x) =
      normalizeGitUrlForComparisonL x := by
  have hrep : ∃ H P, normalizeGitUrlForComparisonL x =
      stripGit ("https://".data ++ H ++ P) ∧
      (∀ c ∈ H ++ P, tailOkChar c = true) := by
    rcases h1 with ⟨u, H, p, hx, hu0, hu1, hu2, hu3, hl, hH, hp0, hp1, hp2⟩ |
      ⟨H, p, hx, hl, hH, hp0, hp1, hp2⟩ |
      ⟨S, H, p, hS, hx, hH, hP0, hPc⟩
    · subst hx
      refine ⟨H, (if p.head? = some '/' then p else '/' :: p),
        normalize_scp_user u H p hu0 hu1 hu2 hu3 hl hH hp0 hp1 hp2, ?_⟩
      intro c hc
      rcases List.mem_append.mp hc with hc | hc
      · exact (hostOk_facts c (hH c hc)).1
      · exact scpPath_tailOk p hp2 c hc
    · subst hx
      refine ⟨H, (if p.head? = some '/' then p else '/' :: p),
        normalize_scp_noUser H p hl hH hp0 hp1 hp2, ?_⟩
      intro c hc
      rcases List.mem_append.mp hc with hc | hc
      · exact (hostOk_facts c (hH c hc)).1
      · exact scpPath_tailOk p hp2 c hc
    · subst hx
      refine ⟨H, p, normalize_scheme_form S H p hS hH hP0 hPc, ?_⟩
      intro c hc
      rcases List.mem_append.mp hc with hc | hc
      · exact (hostOk_facts c (hH c hc)).1
      · exact hPc c hc
  obtain ⟨H, P, hy, hchars⟩ := hrep
  obtain ⟨r, hr⟩ := h3
  obtain ⟨t, ht⟩ := stripGit_drops_suffix ("https://".data ++ H ++ P)
  have heq : "https://".data ++ (H ++ P) = "https://".data ++ (r ++ t) := by
    calc "https://".data ++ (H ++ P)
        = "https://".data ++ H ++ P := by rw [List.append_assoc]
      _ = ("https://".data ++ r) ++ t := by rw [← hr, hy]; exact ht
      _ = "https://".data ++ (r ++ t) := by rw [List.append_assoc]
  have hrt : H ++ P = r ++ t := List.append_cancel_left heq
  have hrchars : ∀ c ∈ r, tailOkChar c = true := by
    intro c hc
    apply hchars
    rw [hrt]
    exact List.mem_append_left t hc
  rw [hr, normalize_https_tail r hrchars, ← hr]
  exact h2

/-- C2 (witness): the amended idempotence applies to the spec example. -/
theorem normalize_idempotent_amended_witness :
    normalizeGitUrlForComparisonL
        (normalizeGitUrlForComparisonL "git@github.com:Org/Repo.git".data) =
      normalizeGitUrlForComparisonL "git@github.com:Org/Repo.git".data :=
  normalize_idempotent_amended "git@github.com:Org/Repo.git".data
    (Or.inl ⟨"git".data, "github.com".data, "Org/Repo.git".data, by decide,
      by decide, by decide, by decide, by decide, by decide, by decide,
      by decide, by decide, by decide⟩)
    (by decide) ⟨"github.com/Org/Repo".data, by decide⟩

/-- C4: the SCP-like spellings (with and without a user part) and the
https spelling of one host and path normalize to the same string as the
ssh spelling. -/
theorem normalize_spelling_equivalence (u host p : List Char)
    (hu0 : u ≠ []) (hu1 : '@' ∉ u) (hu2 : ':' ∉ u) (hu3 : '/' ∉ u)
    (hh1 : 2 ≤ host.length) (hh2 : ∀ c ∈ host, hostOkChar c = true)
    (hp0 : p ≠ []) (hp1 : p.head? ≠ some '/')
    (hp2 : ∀ c ∈ p, tailOkChar c = true) :
    normalizeGitUrlForComparison ⟨u ++ '@' :: (host ++ ':' :: p)⟩ =
      normalizeGitUrlForComparison ⟨"ssh://".data ++ host ++ '/' :: p⟩ ∧
    normalizeGitUrlForComparison ⟨"https://".data ++ host ++ '/' :: p⟩ =
      normalizeGitUrlForComparison ⟨"ssh://".data ++ host ++ '/' :: p⟩ ∧
    normalizeGitUrlForComparison ⟨host ++ ':' :: p⟩ =
      normalizeGitUrlForComparison ⟨"ssh://".data ++ host ++ '/' :: p⟩ := by
  have htake : p.take 2 ≠ ['/', '/'] := by
    cases p with
    | nil => simp
    | cons a t =>
      intro hcon
      have hcon2 : a :: t.take 1 = ['/', '/'] := by simpa using hcon
      injection hcon2 with ha hb
      exact hp1 (by simp [ha])
  have hP0 : ('/' :: p = [] ∨ ∃ t, '/' :: p = '/' :: t) := Or.inr ⟨p, rfl⟩
  have hPc : ∀ c ∈ '/' :: p, tailOkChar c = true := by
    intro c hc
    rcases List.mem_cons.mp hc with h | h
    · subst h; decide
    · exact hp2 c h
  have hsshN : normalizeGitUrlForComparisonL ("ssh://".data ++ host ++ '/' :: p) =
      stripGit ("https://".data ++ host ++ '/' :: p) := by
    have hshape : "ssh://".data ++ host ++ '/' :: p =
        "ssh".data ++ ':' :: '/' :: '/' :: (host ++ '/' :: p) := by
      rw [List.append_assoc]
      rfl
    rw [hshape]
    exact normalize_scheme_form "ssh".data host ('/' :: p) (by decide) hh2 hP0 hPc
  have httpsN : normalizeGitUrlForComparisonL
      ("https://".data ++ host ++ '/' :: p) =
      stripGit ("https://".data ++ host ++ '/' :: p) := by
    have hshape : "https://".data ++ host ++ '/' :: p =
        "https".data ++ ':' :: '/' :: '/' :: (host ++ '/' :: p) := by
      rw [List.append_assoc]
      rfl
    rw [hshape]
    exact normalize_scheme_form "https".data host ('/' :: p) (by decide) hh2 hP0 hPc
  have hscpU : normalizeGitUrlForComparisonL (u ++ '@' :: (host ++ ':' :: p)) =
      stripGit ("https://".data ++ host ++ '/' :: p) := by
    have h := normalize_scp_user u host p hu0 hu1 hu2 hu3 hh1 hh2 hp0 htake hp2
    rwa [if_neg hp1] at h
  have hscpN : normalizeGitUrlForComparisonL (host ++ ':' :: p) =
      stripGit ("https://".data ++ host ++ '/' :: p) := by
    have h := normalize_scp_noUser host p hh1 hh2 hp0 htake hp2
    rwa [if_neg hp1] at h
  exact ⟨congrArg String.mk (hscpU.trans hsshN.symm),
    congrArg String.mk (httpsN.trans hsshN.symm),
    congrArg String.mk (hscpN.trans hsshN.symm)⟩

/-- C4 (witness): the three spellings of the spec example normalize to
equal strings, and the SCP spelling normalizes to the documented
result. -/
theorem normalize_spelling_equivalence_witness :
    (normalizeGitUrlForComparison
        ⟨"git".data ++ '@' :: ("github.com".data ++ ':' :: "Org/Repo.git".data)⟩ =
      normalizeGitUrlForComparison
        ⟨"ssh://".data ++ "github.com".data ++ '/' :: "Org/Repo.git".data⟩ ∧
    normalizeGitUrlForComparison
        ⟨"https://".data ++ "github.com".data ++ '/' :: "Org/Repo.git".data⟩ =
      normalizeGitUrlForComparison
        ⟨"ssh://".data ++ "github.com".data ++ '/' :: "Org/Repo.git".data⟩ ∧
    normalizeGitUrlForComparison ⟨"github.com".data ++ ':' :: "Org/Repo.git".data⟩ =
      normalizeGitUrlForComparison
        ⟨"ssh://".data ++ "github.com".data ++ '/' :: "Org/Repo.git".data⟩) ∧
    normalizeGitUrlForComparison "git@github.com:Org/Repo.git" =
      "https://github.com/Org/Repo" :=
  ⟨normalize_spelling_equivalence "git".data "github.com".data "Org/Repo.git".data
      (by decide) (by decide) (by decide) (by decide) (by decide) (by decide)
      (by decide) (by decide) (by decide),
    by decide⟩

/-- C5: with a path filter, the changed-file list is a sublist, in the
original order, of the list computed without a filter from the same diff
output; a filter never introduces entries. -/
theorem getChangedFiles_filter_sublist (diffOutput : List Char) (q : List Char) :
    (getChangedFilesL diffOutput (some q)).Sublist
      (getChangedFilesL diffOutput none) := by
  rw [getChangedFiles_with_filter_eq]
  exact List.filter_sublist _

/-- C3 (counterexample): a remote branch name without a slash makes the
fetch helper raise, so the fetch step can abort getMergeBase and
getChangedFiles, contrary to the claim quantified over every branch
name. -/
theorem fetch_aborts_cex :
    fetchRemoteBranchL (fun _ _ => false) "master" =
      Except.error ("Unexpected git remote branch format: master. " ++
        "Expected branch to be in the <remote>/<branch name> format.") ∧
    getMergeBaseL (fun _ _ => false) "abc" "master" true =
      Except.error ("Unexpected git remote branch format: master. " ++
        "Expected branch to be in the <remote>/<branch name> format.") ∧
    getChangedFilesFullL (fun _ _ => false) "a\nb".data "master" false none =
      Except.error ("Unexpected git remote branch format: master. " ++
        "Expected branch to be in the <remote>/<branch name> format.") := by
  refine ⟨rfl, rfl, rfl⟩

/-- C3 (amended): for every remote branch name containing a slash, the
fetch step never raises: getMergeBase with fetching and getChangedFiles
without skipFetch both complete using the local diff data, and a failed
fetch only produces the terminal warning. -/
theorem fetch_best_effort_amended (fetchOk : String → String → Bool)
    (mergeBaseOutput : String) (diffOutput : List Char) (targetBranch : String)
    (filterPath : Option (List Char)) (h : '/' ∈ targetBranch.data) :
    (∃ msgs, fetchRemoteBranchL fetchOk targetBranch = Except.ok msgs) ∧
    getMergeBaseL fetchOk mergeBaseOutput targetBranch true =
      Except.ok (jsTrimS mergeBaseOutput) ∧
    getChangedFilesFullL fetchOk diffOutput targetBranch false filterPath =
      Except.ok (getChangedFilesL diffOutput filterPath) ∧
    (tryFetchRemoteBranchL fetchOk targetBranch = Except.ok false →
      fetchRemoteBranchL fetchOk targetBranch =
        Except.ok (["Checking for updates to " ++ targetBranch ++ "..."],
          ["Error fetching git remote branch " ++ targetBranch ++
            ". Detected changed files may be incorrect."])) := by
  obtain ⟨a, b, hab⟩ := splitOnFirst_isSome_of_mem '/' targetBranch.data h
  have htry : tryFetchRemoteBranchL fetchOk targetBranch =
      Except.ok (fetchOk ⟨a⟩ ⟨b⟩) := by
    unfold tryFetchRemoteBranchL
    rw [hab]
  have hfetch : ∃ msgs, fetchRemoteBranchL fetchOk targetBranch =
      Except.ok msgs := by
    unfold fetchRemoteBranchL
    rw [htry]
    cases fetchOk ⟨a⟩ ⟨b⟩
    · exact ⟨_, rfl⟩
    · exact ⟨_, rfl⟩
  obtain ⟨msgs, hmsgs⟩ := hfetch
  refine ⟨⟨msgs, hmsgs⟩, ?_, ?_, ?_⟩
  · simp [getMergeBaseL, hmsgs]
  · simp [getChangedFilesFullL, hmsgs]
  · intro hfail
    unfold fetchRemoteBranchL
    rw [hfail]

/-- C3 (witness): the amended best-effort property at a concrete
slash-containing branch name with a failing fetch oracle. -/
theorem fetch_best_effort_amended_witness :
    ('/' ∈ "origin/main".data) ∧
    ((∃ msgs, fetchRemoteBranchL (fun _ _ => false) "origin/main" =
        Except.ok msgs) ∧
      getMergeBaseL (fun _ _ => false) " abc \n" "origin/main" true =
        Except.ok (jsTrimS " abc \n") ∧
      getChangedFilesFullL (fun _ _ => false) "x\ny".data "origin/main" false none =
        Except.ok (getChangedFilesL "x\ny".data none) ∧
      (tryFetchRemoteBranchL (fun _ _ => false) "origin/main" = Except.ok false →
        fetchRemoteBranchL (fun _ _ => false) "origin/main" =
          Except.ok (["Checking for updates to " ++ "origin/main" ++ "..."],
            ["Error fetching git remote branch " ++ "origin/main" ++
              ". Detected changed files may be incorrect."]))) :=
  ⟨by decide,
    fetch_best_effort_amended (fun _ _ => false) " abc \n" "x\ny".data
      "origin/main" none (by decide)⟩

/-- C6: getUncommittedChanges is the concatenation of the split and
trimmed outputs of the untracked-file query and the diff-vs-HEAD query
with blank entries removed, every produced entry has nonblank content,
and two empty query outputs give the empty list. -/
theorem getUncommittedChanges_spec (u d : List Char) :
    getUncommittedChangesL u d =
      (splitNl (jsTrim u) ++ splitNl (jsTrim d)).filter
        (fun change => !(jsTrim change).isEmpty) ∧
    (∀ c ∈ getUncommittedChangesL u d, (jsTrim c).isEmpty = false) ∧
    getUncommittedChangesL [] [] = [] := by
  refine ⟨rfl, ?_, by decide⟩
  intro c hc
  have h := List.of_mem_filter
    (show c ∈ List.filter (fun change => !(jsTrim change).isEmpty)
      (getUntrackedChangesL u ++ getDiffOnHEADL d) from hc)
  simpa using h

/-- C7: with a failing probe, the first call on a fresh cache invokes
the probe and the second call does not; the second call returns the
cached error outcome of the first. -/
theorem email_probe_executed_once (e : String) :
    (tryGetGitEmailStep (Except.error e) none).2.2 = true ∧
    (tryGetGitEmailStep (Except.error e)
      (tryGetGitEmailStep (Except.error e) none).2.1).2.2 = false ∧
    (tryGetGitEmailStep (Except.error e)
      (tryGetGitEmailStep (Except.error e) none).2.1).1 =
      (tryGetGitEmailStep (Except.error e) none).1 ∧
    ((tryGetGitEmailStep (Except.error e) none).1).error = some e :=
  ⟨rfl, rfl, rfl, rfl⟩

/-- C8: with no configured baseline repository URLs,
getRemoteDefaultBranch warns, returns the configured fully-qualified
fallback branch, and issues no git command at all. -/
theorem remoteDefaultBranch_no_urls (db fqb remotesOutput : String)
    (getUrl : String → String) :
    getRemoteDefaultBranchL ⟨[], db, fqb⟩ remotesOutput getUrl =
      (fqb,
       ["A git remote URL has not been specified in rush.json. Setting the baseline remote URL is recommended."],
       []) := rfl

/-- C9: both memoized query steps only produce and only store
IResultOrError values holding exactly one of a result or an error,
provided the incoming cache slot (when set) already does. -/
theorem resultOrError_exactly_one (probeE probeH : Except String (List Char))
    (cacheE cacheH : Option (IResultOrError (List Char)))
    (hE : ∀ r, cacheE = some r → ExactlyOneOutcome r)
    (hH : ∀ r, cacheH = some r → ExactlyOneOutcome r) :
    (ExactlyOneOutcome (tryGetGitEmailStep probeE cacheE).1 ∧
     ∀ r, (tryGetGitEmailStep probeE cacheE).2.1 = some r →
       ExactlyOneOutcome r) ∧
    (ExactlyOneOutcome (tryGetGitHooksPathStep probeH cacheH).1 ∧
     ∀ r, (tryGetGitHooksPathStep probeH cacheH).2.1 = some r →
       ExactlyOneOutcome r) := by
  constructor
  · cases cacheE with
    | some r =>
      refine ⟨hE r rfl, ?_⟩
      intro r2 h2
      have hr2 : r = r2 := by simpa [tryGetGitEmailStep] using h2
      exact hr2 ▸ hE r rfl
    | none =>
      cases probeE with
      | ok out =>
        refine ⟨Or.inl ⟨rfl, rfl⟩, ?_⟩
        intro r2 h2
        have hr2 : ({ result := some (jsTrim out) } :
            IResultOrError (List Char)) = r2 := by
          simpa [tryGetGitEmailStep] using h2
        exact hr2 ▸ Or.inl ⟨rfl, rfl⟩
      | error e =>
        refine ⟨Or.inr ⟨rfl, rfl⟩, ?_⟩
        intro r2 h2
        have hr2 : ({ error := some e } : IResultOrError (List Char)) = r2 := by
          simpa [tryGetGitEmailStep] using h2
        exact hr2 ▸ Or.inr ⟨rfl, rfl⟩
  · cases cacheH with
    | some r =>
      refine ⟨hH r rfl, ?_⟩
      intro r2 h2
      have hr2 : r = r2 := by simpa [tryGetGitHooksPathStep] using h2
      exact hr2 ▸ hH r rfl
    | none =>
      cases probeH with
      | ok out =>
        refine ⟨Or.inl ⟨rfl, rfl⟩, ?_⟩
        intro r2 h2
        have hr2 : ({ result := some (jsTrim out) } :
            IResultOrError (List Char)) = r2 := by
          simpa [tryGetGitHooksPathStep] using h2
        exact hr2 ▸ Or.inl ⟨rfl, rfl⟩
      | error e =>
        refine ⟨Or.inr ⟨rfl, rfl⟩, ?_⟩
        intro r2 h2
        have hr2 : ({ error := some e } : IResultOrError (List Char)) = r2 := by
          simpa [tryGetGitHooksPathStep] using h2
        exact hr2 ▸ Or.inr ⟨rfl, rfl⟩

/-- C9 (witness): the invariant at concrete probes and empty caches. -/
theorem resultOrError_exactly_one_witness :
    (ExactlyOneOutcome
        (tryGetGitEmailStep (Except.ok "bob@example.com".data) none).1 ∧
     ∀ r, (tryGetGitEmailStep (Except.ok "bob@example.com".data) none).2.1 =
        some r → ExactlyOneOutcome r) ∧
    (ExactlyOneOutcome
        (tryGetGitHooksPathStep (Except.error "failed") none).1 ∧
     ∀ r, (tryGetGitHooksPathStep (Except.error "failed") none).2.1 =
        some r → ExactlyOneOutcome r) :=
  resultOrError_exactly_one (Except.ok "bob@example.com".data)
    (Except.error "failed") none none (fun _ h => nomatch h) (fun _ h => nomatch h)

/-- C10: on a fresh cache, getGitEmail succeeds exactly when the probe
succeeded with a nonblank trimmed value, and then returns that nonempty
trimmed value; a failed probe or a blank value yields the printed
instructions and the already-reported error. -/
theorem getGitEmail_spec (probe : Except String (List Char))
    (policyLines : List String) :
    (∀ s, (getGitEmailL probe policyLines none).1 = Except.ok s →
      s ≠ [] ∧ ∃ out, probe = Except.ok out ∧ s = jsTrim out) ∧
    (∀ e, probe = Except.error e →
      ∃ msgs, (getGitEmailL probe policyLines none).1 = Except.error msgs) ∧
    (∀ out, probe = Except.ok out → jsTrim out = [] →
      ∃ msgs, (getGitEmailL probe policyLines none).1 = Except.error msgs) := by
  cases probe with
  | error e =>
    refine ⟨?_, ?_, ?_⟩
    · intro s hs
      exact absurd hs (by simp [getGitEmailL, tryGetGitEmailStep])
    · intro e2 he2
      exact ⟨_, rfl⟩
    · intro out hout
      exact absurd hout (by simp)
  | ok out =>
    by_cases hemp : (jsTrim out).isEmpty
    · have hnil : jsTrim out = [] := by simpa using hemp
      refine ⟨?_, ?_, ?_⟩
      · intro s hs
        exact absurd hs (by simp [getGitEmailL, tryGetGitEmailStep, hemp])
      · intro e2 he2
        exact absurd he2 (by simp)
      · intro out2 hout2 htrim
        refine ⟨["This operation requires that a Git email be specified.", "",
          "If you did not configure your email yet, try something like this:",
          ""] ++ policyLines ++ [""], ?_⟩
        simp [getGitEmailL, tryGetGitEmailStep, hemp]
    · refine ⟨?_, ?_, ?_⟩
      · intro s hs
        have hsv : jsTrim out = s := by
          simpa [getGitEmailL, tryGetGitEmailStep, hemp] using hs
        refine ⟨?_, out, rfl, hsv.symm⟩
        rw [← hsv]
        simpa using hemp
      · intro e2 he2
        exact absurd he2 (by simp)
      · intro out2 hout2 htrim
        have : out = out2 := by simpa using hout2
        subst this
        exact absurd htrim (by simpa using hemp)

/-- C10 (witness): a successful probe with surrounding whitespace gives
the nonempty trimmed email. -/
theorem getGitEmail_spec_witness :
    "bob@example.com".data ≠ [] ∧
    ∃ out, (Except.ok " bob@example.com ".data : Except String (List Char)) =
      Except.ok out ∧ "bob@example.com".data = jsTrim out :=
  (getGitEmail_spec (Except.ok " bob@example.com ".data) []).1
    "bob@example.com".data (by rfl)

end RushGit
